import Mathlib

/-!
Shallow embedding of the site-mirroring script kd.py: the name sanitiser
clean_filename, POSIX path joining, the query-string rewriting used by
create_chapter_views, the retrying fetcher get_page_content, batch
extraction, and the materialisation traversal create_batch_structure.

Strings are modelled through their character lists.  Whitespace is the
ASCII whitespace class (the class matched both by the regex shorthand
used in clean_filename and by the strip method on the characters that
occur here).
-/

namespace KD

/-! ### Character classes -/

/-- ASCII whitespace characters. -/
def pyWs (c : Char) : Bool :=
  c = ' ' || c = '\t' || c = '\n' || c = '\r' || c = '\x0b' || c = '\x0c'

/-- The characters deleted by clean_filename, from the character class
of the first substitution in kd.py line 38. -/
def badChars : List Char := ['<', '>', ':', '\"', '/', '\\', '|', '?', '*']

/-! ### The sanitiser clean_filename (kd.py lines 35-42) -/

/-- First substitution: delete every occurrence of a bad character. -/
def removeBad (l : List Char) : List Char :=
  l.filter (fun c => !(badChars.contains c))

/-- Second substitution: replace every maximal run of whitespace with a
single space.  Each run is emitted as one space at the end of the run. -/
def collapseWs : List Char → List Char
  | [] => []
  | c :: rest =>
    if pyWs c then
      match rest with
      | [] => [' ']
      | d :: _ => if pyWs d then collapseWs rest else ' ' :: collapseWs rest
    else c :: collapseWs rest

/-- The strip method with no argument: drop leading and trailing
whitespace. -/
def stripWs (l : List Char) : List Char :=
  ((l.dropWhile pyWs).reverse.dropWhile pyWs).reverse

/-- clean_filename on character lists: delete bad characters, collapse
whitespace runs, strip, then truncate to 100 characters. -/
def cleanChars (l : List Char) : List Char :=
  (stripWs (collapseWs (removeBad l))).take 100

/-- clean_filename (kd.py lines 35-42). -/
def clean_filename (s : String) : String := ⟨cleanChars s.data⟩

/-! ### POSIX path joining (os.path.join with separator /) -/

/-- os.path.join for two components on character lists. -/
def pjoinL (a b : List Char) : List Char :=
  if b.head? = some '/' then b
  else if a = [] ∨ a.getLast? = some '/' then a ++ b
  else a ++ '/' :: b

/-- os.path.join for two components. -/
def pjoin (a b : String) : String := ⟨pjoinL a.data b.data⟩

/-- os.path.dirname on character lists: the part before the final
separator, with trailing separators stripped unless the result consists
only of separators. -/
def dirnameL (l : List Char) : List Char :=
  let head := (l.reverse.dropWhile (fun c => !(c = '/'))).reverse
  if head = [] || head.all (fun c => c = '/') then head
  else (head.reverse.dropWhile (fun c => c = '/')).reverse

/-- os.path.dirname. -/
def dirnameP (s : String) : String := ⟨dirnameL s.data⟩

/-! ### Query strings (urllib.parse, as used by create_chapter_views)

The query-string functions are modelled at the character level for
ASCII data: percent escapes encode the code point of the character,
which agrees with the library on ASCII input. -/

/-- Split a list on every occurrence of a separator character. -/
def splitChar (sep : Char) : List Char → List (List Char)
  | [] => [[]]
  | c :: rest =>
    match splitChar sep rest with
    | [] => [[]]
    | h :: t => if c = sep then [] :: h :: t else (c :: h) :: t

/-- Split a list at the first occurrence of a separator character,
returning none when the separator does not occur. -/
def splitFirst (sep : Char) : List Char → Option (List Char × List Char)
  | [] => none
  | c :: rest =>
    if c = sep then some ([], rest)
    else (splitFirst sep rest).map (fun p => (c :: p.1, p.2))

/-- The value of a hexadecimal digit. -/
def hexVal (c : Char) : Option Nat :=
  if '0' ≤ c ∧ c ≤ '9' then some (c.toNat - '0'.toNat)
  else if 'a' ≤ c ∧ c ≤ 'f' then some (c.toNat - 'a'.toNat + 10)
  else if 'A' ≤ c ∧ c ≤ 'F' then some (c.toNat - 'A'.toNat + 10)
  else none

/-- Percent-decoding: a percent sign followed by two hexadecimal digits
becomes the character with that code point; malformed escapes are kept
verbatim. -/
def unquoteChars : List Char → List Char
  | [] => []
  | '%' :: a :: b :: rest =>
    match hexVal a, hexVal b with
    | some x, some y => Char.ofNat (16 * x + y) :: unquoteChars rest
    | _, _ => '%' :: a :: b :: unquoteChars rest
  | c :: rest => c :: unquoteChars rest

/-- unquote_plus: replace plus signs by spaces, then percent-decode. -/
def unquotePlus (l : List Char) : List Char :=
  unquoteChars (l.map (fun c => if c = '+' then ' ' else c))

/-- parse_qsl with keep_blank_values left False: split the query on
ampersands, drop empty fields, drop fields with no equals sign, split
each remaining field at its first equals sign, drop pairs whose value
is empty, and decode name and value. -/
def parseQsl (qs : List Char) : List (List Char × List Char) :=
  (splitChar '&' qs).filterMap fun nv =>
    if nv = [] then none
    else
      match splitFirst '=' nv with
      | none => none
      | some (n, v) =>
        if v = [] then none else some (unquotePlus n, unquotePlus v)

/-- Append a value under a key in an association of keys to value
lists, keeping the position of an existing key and appending new keys
at the end: the aggregation step of parse_qs. -/
def insertVal (k v : List Char) :
    List (List Char × List (List Char)) → List (List Char × List (List Char))
  | [] => [(k, [v])]
  | (k1, vs) :: rest =>
    if k1 = k then (k1, vs ++ [v]) :: rest else (k1, vs) :: insertVal k v rest

/-- parse_qs: group the pairs of parse_qsl by key, in order of first
occurrence. -/
def parseQs (qs : List Char) : List (List Char × List (List Char)) :=
  (parseQsl qs).foldl (fun d p => insertVal p.1 p.2 d) []

/-- Dictionary assignment: replace the value list of an existing key in
place, or append the key at the end. -/
def setItem (k : List Char) (v : List (List Char)) :
    List (List Char × List (List Char)) → List (List Char × List (List Char))
  | [] => [(k, v)]
  | (k1, vs) :: rest =>
    if k1 = k then (k1, v) :: rest else (k1, vs) :: setItem k v rest

/-- The characters quote_plus never escapes. -/
def alwaysSafe (c : Char) : Bool :=
  ('A' ≤ c && c ≤ 'Z') || ('a' ≤ c && c ≤ 'z') || ('0' ≤ c && c ≤ '9') ||
  c = '_' || c = '.' || c = '-' || c = '~'

/-- The uppercase hexadecimal digit of a value below sixteen. -/
def hexDigitChar (n : Nat) : Char :=
  if n < 10 then Char.ofNat ('0'.toNat + n) else Char.ofNat ('A'.toNat + (n - 10))

/-- quote_plus on one character: safe characters unchanged, space to a
plus sign, anything else percent-encoded. -/
def quoteCharPlus (c : Char) : List Char :=
  if alwaysSafe c then [c]
  else if c = ' ' then ['+']
  else ['%', hexDigitChar (c.toNat / 16 % 16), hexDigitChar (c.toNat % 16)]

/-- quote_plus on a list of characters. -/
def quotePlus (l : List Char) : List Char := l.flatMap quoteCharPlus

/-- urlencode with doseq True over an ordered dictionary from keys to
value lists: one encoded field per value, joined with ampersands. -/
def urlencodeDoseq (d : List (List Char × List (List Char))) : List Char :=
  List.intercalate ['&']
    (d.flatMap fun p => p.2.map (fun v => quotePlus p.1 ++ '=' :: quotePlus v))

/-- The key view as a character list. -/
def viewKey : List Char := ['v', 'i', 'e', 'w']

/-- The query-string rewriting performed inline in create_chapter_views
(kd.py lines 298-301 and 316-319): parse the query with parse_qs, set
the view key to the singleton list holding the requested view, and
re-serialise with urlencode. -/
def deriveViewQuery (qs : List Char) (view : List Char) : List Char :=
  urlencodeDoseq (setItem viewKey [view] (parseQs qs))

/-! ### Parsed URLs (urlparse results) -/

/-- The six components of a urlparse result. -/
structure ParsedUrl where
  scheme : String
  netloc : String
  path : String
  params : String
  query : String
  fragment : String
deriving DecidableEq, Repr

/-- The view-URL derivation of create_chapter_views at the component
level: parsed_url replaced with a new query produced by parse_qs,
assignment of view, and urlencode; every other component is kept. -/
def derive_view_url (u : ParsedUrl) (view : String) : ParsedUrl :=
  { u with query := ⟨deriveViewQuery u.query.data view.data⟩ }

/-- geturl, modelled for ordinary absolute URLs: scheme, then the
network location after a double slash, then path, parameters, query and
fragment, each with its delimiter when present. -/
def geturl (u : ParsedUrl) : String :=
  (if u.scheme = "" then "" else u.scheme ++ ":") ++
  (if u.netloc = "" then "" else "//" ++ u.netloc) ++
  u.path ++
  (if u.params = "" then "" else ";" ++ u.params) ++
  (if u.query = "" then "" else "?" ++ u.query) ++
  (if u.fragment = "" then "" else "#" ++ u.fragment)

/-- urlparse, modelled for ordinary absolute URLs of the shape
scheme://netloc/path?query#fragment; path parameters are not split
off. -/
def urlparseM (s : String) : ParsedUrl :=
  let l := s.data
  let (scheme, rest) :=
    match splitFirst ':' l with
    | some (sc, r) =>
      if r.take 2 = ['/', '/'] ∧ sc.all Char.isAlpha ∧ sc ≠ [] then (sc, r.drop 2)
      else ([], l)
    | none => ([], l)
  let netloc := rest.takeWhile (fun c => !(c = '/' || c = '?' || c = '#'))
  let rest2 := rest.drop netloc.length
  let (beforeFrag, fragment) :=
    match splitFirst '#' rest2 with
    | some (a, b) => (a, b)
    | none => (rest2, [])
  let (path, query) :=
    match splitFirst '?' beforeFrag with
    | some (a, b) => (a, b)
    | none => (beforeFrag, [])
  ⟨⟨scheme⟩, ⟨netloc⟩, ⟨path⟩, "", ⟨query⟩, ⟨fragment⟩⟩

/-! ### The fetcher get_page_content (kd.py lines 20-33)

One attempt of the try block is modelled by an oracle from the attempt
number to either the response text or the message of the exception
raised by the request or by raise_for_status. -/

/-- The diagnostic printed on a failed attempt (kd.py line 29). -/
def errMsg (url : String) (attempt : Nat) (e : String) : String :=
  "Error fetching " ++ url ++ " (attempt " ++ toString (attempt + 1) ++ "): " ++ e

/-- What a call of get_page_content produces: the returned value (none
models falling off the loop when max_retries is zero, in which Python
returns a bare None), the printed diagnostics, the total time slept
between attempts, and the number of attempts made. -/
structure FetchOutcome where
  result : Option (Option String × Bool)
  log : List String
  sleeps : Nat
  attempts : Nat
deriving Repr

/-- The retry loop of get_page_content from a given attempt number. -/
def getPageFrom (oracle : Nat → Except String String) (url : String)
    (maxRetries : Nat) (attempt : Nat) : FetchOutcome :=
  if _h : attempt < maxRetries then
    match oracle attempt with
    | .ok body => ⟨some (some body, true), [], 0, 1⟩
    | .error e =>
      if attempt < maxRetries - 1 then
        let rest := getPageFrom oracle url maxRetries (attempt + 1)
        ⟨rest.result, errMsg url attempt e :: rest.log, 2 + rest.sleeps,
          1 + rest.attempts⟩
      else ⟨some (none, false), [errMsg url attempt e], 0, 1⟩
  else ⟨none, [], 0, 0⟩
termination_by maxRetries - attempt
decreasing_by omega

/-- get_page_content (kd.py lines 20-33). -/
def get_page_content (oracle : Nat → Except String String) (url : String)
    (maxRetries : Nat) : FetchOutcome :=
  getPageFrom oracle url maxRetries 0

/-! ### Records and batch extraction (kd.py lines 109-152) -/

/-- A record produced for one batch (kd.py lines 142-146). -/
structure BatchRecord where
  name : String
  link : String
  image : String
deriving DecidableEq, Repr

/-- A record produced for one chapter (kd.py lines 211-216). -/
structure ChapterRecord where
  name : String
  link : Option String
  image : String
  videos : Nat
  notes : Nat
deriving DecidableEq, Repr

/-- The attributes of one div with class batch-item that the extractor
reads: the data-batch-name attribute, the text of a nested h3 with
class batch-title, the href of a nested anchor with class study-btn,
and the src of a nested img with class batch-image. -/
structure BatchDiv where
  dataBatchName : Option String
  titleText : Option String
  studyHref : Option String
  imgSrc : Option String
deriving DecidableEq, Repr

/-- The strip method on strings. -/
def stripStr (s : String) : String := ⟨stripWs s.data⟩

/-- Does the string start with the given literal. -/
def startsWithL (pre s : String) : Bool := pre.data.isPrefixOf s.data

/-- Extraction of one batch item (kd.py lines 122-150): the name is the
data-batch-name attribute if non-empty, else the stripped title text;
a record is produced exactly when the study link is present, with the
link resolved with urljoin and the image resolved with urljoin unless
it already starts with http or a double slash.  The resolution function
urljoin is an external library capability passed as a parameter. -/
def extractBatchDiv (urljoin : String → String → String) (mainUrl : String)
    (d : BatchDiv) : Option BatchRecord :=
  let name0 := d.dataBatchName.getD ""
  let name :=
    if name0 = "" then
      match d.titleText with
      | some t => stripStr t
      | none => ""
    else name0
  match d.studyHref with
  | some href =>
    let link := urljoin mainUrl href
    let img0 := d.imgSrc.getD ""
    let img :=
      if img0 ≠ "" ∧ !(startsWithL "http" img0 || startsWithL "//" img0) then
        urljoin mainUrl img0
      else img0
    some ⟨name, link, img⟩
  | none => none

/-- extract_batches over the list of batch-item divs found on the main
page (kd.py lines 109-152). -/
def extract_batches (urljoin : String → String → String) (mainUrl : String)
    (divs : List BatchDiv) : List BatchRecord :=
  divs.filterMap (extractBatchDiv urljoin mainUrl)

/-! ### The materialisation traversal (kd.py lines 224-381)

Side effects are recorded as a trace of operations: directory creation,
page fetches, file writes, and printed log lines.  A fetch is modelled
by an oracle from the URL to the first component of a successful
get_page_content call, none standing for the failure result. -/

/-- One observable side effect of the traversal. -/
inductive TraceOp where
  | mkdir (path : String)
  | fetchUrl (url : String)
  | write (path : String) (content : String)
  | logLine (msg : String)
deriving DecidableEq, Repr

/-- save_html (kd.py lines 44-53): create the parent directory of the
target, then write the content there. -/
def save_html (content : String) (filepath : String) : List TraceOp :=
  [TraceOp.mkdir (dirnameP filepath), TraceOp.write filepath content]

/-- The rendered body of the main index page: the template is a fixed
rendering collaborator consuming the name, image and sanitised folder
name of each batch; its markup is abbreviated to those fields. -/
def renderMainIndex (batches : List BatchRecord) : String :=
  String.join (batches.map fun b =>
    b.name ++ "|" ++ b.image ++ "|" ++ clean_filename b.name ++ "/index.html;")

/-- create_main_index (kd.py lines 55-107): render the template over
the batches and save it as index.html under the base directory. -/
def create_main_index (batches : List BatchRecord) (baseDir : String) :
    List TraceOp :=
  let indexPath := pjoin baseDir "index.html"
  save_html (renderMainIndex batches) indexPath ++
    [TraceOp.logLine ("Created main index.html at " ++ indexPath)]

/-- The rendered body of a batch index page, abbreviated to the fields
the template consumes. -/
def renderBatchIndex (batch : BatchRecord) (chapters : List ChapterRecord) :
    String :=
  batch.name ++ ">" ++
  String.join (chapters.map fun c =>
    c.name ++ "|" ++ c.image ++ "|" ++ toString c.videos ++ "|" ++
    toString c.notes ++ "|" ++ clean_filename c.name ++ ";")

/-- create_batch_index (kd.py lines 224-288). -/
def create_batch_index (batch : BatchRecord) (chapters : List ChapterRecord)
    (batchFolderPath : String) : List TraceOp :=
  let indexPath := pjoin batchFolderPath "index.html"
  save_html (renderBatchIndex batch chapters) indexPath ++
    [TraceOp.logLine ("Created batch index.html at " ++ indexPath)]

/-- Python truthiness of the optional chapter link: none and the empty
string are falsy. -/
def truthyOpt (o : Option String) : Bool :=
  match o with
  | some s => !(s = "")
  | none => false

/-- One view block of create_chapter_views: derive the view URL from
the chapter link, fetch it, and on success save it as the index page of
the view folder.  Used with view lectures and view notes. -/
def chapterViewBlock (fetch : String → Option String) (link : String)
    (viewFolder : String) (view : String) : List TraceOp :=
  let viewUrl := geturl (derive_view_url (urlparseM link) view)
  TraceOp.fetchUrl viewUrl ::
    match fetch viewUrl with
    | some content =>
      let indexPath := pjoin viewFolder "index.html"
      save_html content indexPath ++
        [TraceOp.logLine ("Created " ++ view ++ " index.html at " ++ indexPath)]
    | none => []

/-- create_chapter_views (kd.py lines 290-326): create the Lectures
folder, and when the chapter link is truthy fetch the lectures view and
save it on success; then the same for the Notes folder. -/
def create_chapter_views (fetch : String → Option String)
    (chapter : ChapterRecord) (chapterFolderPath : String) : List TraceOp :=
  let lecturesFolder := pjoin chapterFolderPath "Lectures"
  let notesFolder := pjoin chapterFolderPath "Notes"
  TraceOp.mkdir lecturesFolder ::
    ((if truthyOpt chapter.link then
        chapterViewBlock fetch (chapter.link.getD "") lecturesFolder "lectures"
      else []) ++
     TraceOp.mkdir notesFolder ::
       (if truthyOpt chapter.link then
          chapterViewBlock fetch (chapter.link.getD "") notesFolder "notes"
        else []))

/-- The folder path of a batch (kd.py lines 344-345). -/
def batch_folder_path (baseDir : String) (batchName : String) : String :=
  pjoin baseDir (clean_filename batchName)

/-- The folder path of a chapter inside a batch (kd.py lines 366-367). -/
def chapter_folder_path (batchFolderPath : String) (chapterName : String) :
    String :=
  pjoin batchFolderPath (clean_filename chapterName)

/-- The chapter loop body of create_batch_structure (kd.py lines
364-374). -/
def processChapter (fetch : String → Option String) (batchFolderPath : String)
    (chapter : ChapterRecord) : List TraceOp :=
  let folder := chapter_folder_path batchFolderPath chapter.name
  TraceOp.mkdir folder :: create_chapter_views fetch chapter folder

/-- The batch loop body of create_batch_structure (kd.py lines
341-377): create the batch folder, fetch the batch page and save it as
batch_details.html on success, extract the chapters (a fetch plus parse
of the same page, supplied as an oracle from the batch link), render
the batch index, then process each chapter. -/
def processBatch (fetch : String → Option String)
    (chaptersOf : String → List ChapterRecord) (baseDir : String)
    (b : BatchRecord) : List TraceOp :=
  let folder := batch_folder_path baseDir b.name
  let chapters := chaptersOf b.link
  TraceOp.mkdir folder ::
    TraceOp.fetchUrl b.link ::
    ((match fetch b.link with
      | some content => save_html content (pjoin folder "batch_details.html")
      | none => []) ++
     create_batch_index b chapters folder ++
     chapters.flatMap (processChapter fetch folder))

/-- create_batch_structure (kd.py lines 328-381) applied to the batch
records extracted from the main page: when no batches were found, print
the informational line and return; otherwise render the main index and
process each batch in sequence. -/
def create_batch_structure (fetch : String → Option String)
    (chaptersOf : String → List ChapterRecord) (batches : List BatchRecord)
    (baseDir : String) : List TraceOp :=
  if batches = [] then [TraceOp.logLine "No batches found!"]
  else
    TraceOp.logLine ("Found " ++ toString batches.length ++ " batches") ::
      (create_main_index batches baseDir ++
       batches.flatMap (processBatch fetch chaptersOf baseDir))

/-! ### Views of the data used in the statements -/

/-- Serialisation of a list of key-value pairs as a query string. -/
def serializeQs (pairs : List (List Char × List Char)) : List Char :=
  List.intercalate ['&'] (pairs.map fun p => p.1 ++ '=' :: p.2)

/-- The values carried by a key among a list of pairs, in order. -/
def valuesOf (k : List Char) (pairs : List (List Char × List Char)) :
    List (List Char) :=
  (pairs.filter (fun p => p.1 = k)).map Prod.snd

/-- Flattening of a grouped dictionary back to a list of pairs. -/
def flattenG (d : List (List Char × List (List Char))) :
    List (List Char × List Char) :=
  d.flatMap fun p => p.2.map (fun v => (p.1, v))

/-- A well-formed pair for the round-trip statements: every character
of the key and of the value is kept verbatim by quote_plus, and the
value is non-empty. -/
def safePair (p : List Char × List Char) : Prop :=
  p.1.all alwaysSafe = true ∧ p.2.all alwaysSafe = true ∧ p.2 ≠ []

instance (p : List Char × List Char) : Decidable (safePair p) := by
  unfold safePair; infer_instance

/-- The keys occurring textually in a query string: the part before the
first equals sign of each non-empty ampersand-separated field, or the
whole field when it has no equals sign. -/
def rawKeys (qs : List Char) : List (List Char) :=
  ((splitChar '&' qs).filter (fun nv => nv ≠ [])).map fun nv =>
    match splitFirst '=' nv with
    | some p => p.1
    | none => nv

/-- No two adjacent whitespace characters. -/
def noWsRun : List Char → Bool
  | [] => true
  | [_] => true
  | a :: b :: rest => !(pyWs a && pyWs b) && noWsRun (b :: rest)

/-! ## Theorems -/

/-! ### Path joining -/

theorem pjoinL_nil_right (a : List Char) :
    pjoinL a [] = if a = [] ∨ a.getLast? = some '/' then a else a ++ ['/'] := by
  unfold pjoinL
  rw [if_neg (by simp)]
  split
  · simp
  · rfl

theorem pjoinL_through_empty (a x : List Char) (hx : x.head? ≠ some '/') :
    pjoinL (pjoinL a []) x = pjoinL a x := by
  rw [pjoinL_nil_right]
  split
  · rfl
  · rename_i h
    unfold pjoinL
    rw [if_neg hx, if_neg hx, if_pos (Or.inr (by simp)), if_neg h]
    simp

theorem pjoin_through_empty (a : String) (x : String)
    (hx : x.data.head? ≠ some '/') : pjoin (pjoin a "") x = pjoin a x := by
  unfold pjoin
  exact congrArg String.mk (pjoinL_through_empty a.data x.data hx)

/-- C10: the raw name consisting of the nine forbidden characters and a
space is non-empty but sanitises to the empty string; joining that
empty folder name onto the output root gives a directory that is the
output root itself (up to a trailing separator), so the index.html and
batch_details.html of such a batch are written to the same paths as the
corresponding files directly under the output root, the former
colliding with the root index page. -/
theorem c10_empty_sanitised_name_collides_with_root :
    ("<>:\"/\\|?* " : String) ≠ "" ∧
    clean_filename "<>:\"/\\|?* " = "" ∧
    ∀ baseDir : String,
      (batch_folder_path baseDir "<>:\"/\\|?* " = baseDir ∨
       batch_folder_path baseDir "<>:\"/\\|?* " = baseDir ++ "/") ∧
      pjoin (batch_folder_path baseDir "<>:\"/\\|?* ") "index.html" =
        pjoin baseDir "index.html" ∧
      pjoin (batch_folder_path baseDir "<>:\"/\\|?* ") "batch_details.html" =
        pjoin baseDir "batch_details.html" := by
  refine ⟨by decide, by decide, fun baseDir => ⟨?_, ?_, ?_⟩⟩
  · have hcl : clean_filename "<>:\"/\\|?* " = "" := by decide
    unfold batch_folder_path
    rw [hcl]
    unfold pjoin
    rw [pjoinL_nil_right]
    split
    · left; rfl
    · right
      have : (baseDir ++ "/").data = baseDir.data ++ ['/'] := by
        rw [String.data_append]
      apply String.ext
      simp [this]
  · have hcl : clean_filename "<>:\"/\\|?* " = "" := by decide
    unfold batch_folder_path
    rw [hcl]
    exact pjoin_through_empty baseDir "index.html" (by decide)
  · have hcl : clean_filename "<>:\"/\\|?* " = "" := by decide
    unfold batch_folder_path
    rw [hcl]
    exact pjoin_through_empty baseDir "batch_details.html" (by decide)

/-- C5: the code computes chapter directories as the sanitised name
joined under the batch directory with no disambiguation, so the two
distinct chapter names Ch 1? and Ch 1* collapse to the one directory
path /out/Batch/Ch 1, and the traversal creates that same directory for
both chapters. -/
theorem c5_sanitised_names_collide :
    ("Ch 1?" : String) ≠ "Ch 1*" ∧
    chapter_folder_path "/out/Batch" "Ch 1?" =
      chapter_folder_path "/out/Batch" "Ch 1*" ∧
    (processChapter (fun _ => none) "/out/Batch"
        ⟨"Ch 1?", none, "", 0, 0⟩).head? =
      some (TraceOp.mkdir "/out/Batch/Ch 1") ∧
    (processChapter (fun _ => none) "/out/Batch"
        ⟨"Ch 1*", none, "", 0, 0⟩).head? =
      some (TraceOp.mkdir "/out/Batch/Ch 1") := by
  refine ⟨by decide, by decide, rfl, rfl⟩

/-- C8: for a chapter record with an absent link, create_chapter_views
creates the Lectures and Notes subdirectories and nothing else: no URL
is fetched and no file is written. -/
theorem c8_absent_link_partial_result (fetch : String → Option String)
    (ch : ChapterRecord) (path : String) (hlink : ch.link = none) :
    create_chapter_views fetch ch path =
      [TraceOp.mkdir (pjoin path "Lectures"),
       TraceOp.mkdir (pjoin path "Notes")] ∧
    (∀ u, TraceOp.fetchUrl u ∉ create_chapter_views fetch ch path) ∧
    (∀ p c, TraceOp.write p c ∉ create_chapter_views fetch ch path) := by
  have ht : truthyOpt ch.link = false := by rw [hlink]; rfl
  have h1 : create_chapter_views fetch ch path =
      [TraceOp.mkdir (pjoin path "Lectures"),
       TraceOp.mkdir (pjoin path "Notes")] := by
    unfold create_chapter_views
    rw [ht]
    simp
  refine ⟨h1, ?_, ?_⟩
  · intro u
    rw [h1]
    simp
  · intro p c
    rw [h1]
    simp

/-- C8 witness at a concrete chapter. -/
theorem c8_absent_link_partial_result_witness :
    create_chapter_views (fun _ => none) ⟨"Ch", none, "", 0, 0⟩ "/out/B/Ch" =
      [TraceOp.mkdir (pjoin "/out/B/Ch" "Lectures"),
       TraceOp.mkdir (pjoin "/out/B/Ch" "Notes")] ∧
    (∀ u, TraceOp.fetchUrl u ∉
      create_chapter_views (fun _ => none) ⟨"Ch", none, "", 0, 0⟩ "/out/B/Ch") ∧
    (∀ p c, TraceOp.write p c ∉
      create_chapter_views (fun _ => none) ⟨"Ch", none, "", 0, 0⟩ "/out/B/Ch") :=
  c8_absent_link_partial_result (fun _ => none) ⟨"Ch", none, "", 0, 0⟩
    "/out/B/Ch" rfl

/-- C9: when the extraction of the root listing page yields zero batch
records, the traversal ends with only the informational log line: no
root index page is rendered, no directory is created, nothing is
fetched, nothing is written. -/
theorem c9_zero_batches_clean_outcome (fetch : String → Option String)
    (chaptersOf : String → List ChapterRecord)
    (urljoin : String → String → String) (mainUrl baseDir : String)
    (divs : List BatchDiv)
    (hzero : extract_batches urljoin mainUrl divs = []) :
    create_batch_structure fetch chaptersOf
        (extract_batches urljoin mainUrl divs) baseDir =
      [TraceOp.logLine "No batches found!"] ∧
    (∀ p, TraceOp.mkdir p ∉ create_batch_structure fetch chaptersOf
        (extract_batches urljoin mainUrl divs) baseDir) ∧
    (∀ u, TraceOp.fetchUrl u ∉ create_batch_structure fetch chaptersOf
        (extract_batches urljoin mainUrl divs) baseDir) ∧
    (∀ p c, TraceOp.write p c ∉ create_batch_structure fetch chaptersOf
        (extract_batches urljoin mainUrl divs) baseDir) := by
  rw [hzero]
  have h1 : create_batch_structure fetch chaptersOf [] baseDir =
      [TraceOp.logLine "No batches found!"] := by
    unfold create_batch_structure
    simp
  refine ⟨h1, ?_, ?_, ?_⟩
  · intro p; rw [h1]; simp
  · intro u; rw [h1]; simp
  · intro p c; rw [h1]; simp

/-- C9 witness at the empty div list. -/
theorem c9_zero_batches_clean_outcome_witness :
    create_batch_structure (fun _ => none) (fun _ => [])
        (extract_batches (fun _ u => u) "http://m" []) "/out" =
      [TraceOp.logLine "No batches found!"] ∧
    (∀ p, TraceOp.mkdir p ∉ create_batch_structure (fun _ => none) (fun _ => [])
        (extract_batches (fun _ u => u) "http://m" []) "/out") ∧
    (∀ u, TraceOp.fetchUrl u ∉ create_batch_structure (fun _ => none) (fun _ => [])
        (extract_batches (fun _ u => u) "http://m" []) "/out") ∧
    (∀ p c, TraceOp.write p c ∉ create_batch_structure (fun _ => none) (fun _ => [])
        (extract_batches (fun _ u => u) "http://m" []) "/out") :=
  c9_zero_batches_clean_outcome (fun _ => none) (fun _ => [])
    (fun _ u => u) "http://m" "/out" [] rfl

/-! ### The fetcher -/

theorem getPageFrom_result_isSome (oracle : Nat → Except String String)
    (url : String) (maxRetries : Nat) :
    ∀ n a, maxRetries - a = n → a < maxRetries →
      (getPageFrom oracle url maxRetries a).result.isSome = true := by
  intro n
  induction n with
  | zero => intro a h ha; omega
  | succ n ih =>
    intro a hn ha
    unfold getPageFrom
    rw [dif_pos ha]
    split
    · simp
    · by_cases hlt : a < maxRetries - 1
      · rw [if_pos hlt]
        exact ih (a + 1) (by omega) (by omega)
      · rw [if_neg hlt]
        simp

theorem errMsg_data (url : String) (a : Nat) (e : String) :
    (errMsg url a e).data =
      "Error fetching ".data ++ url.data ++
        ((" (attempt " ++ toString (a + 1) ++ "): ").data ++ e.data) := by
  simp [errMsg, String.data_append]

theorem getPageFrom_all_fail (oracle : Nat → Except String String)
    (url : String) (e : Nat → String) (maxRetries : Nat) :
    ∀ n a, maxRetries - a = n → a < maxRetries →
      (∀ i, i < maxRetries → oracle i = Except.error (e i)) →
      getPageFrom oracle url maxRetries a =
        ⟨some (none, false),
         (List.range' a (maxRetries - a)).map (fun i => errMsg url i (e i)),
         2 * (maxRetries - a - 1), maxRetries - a⟩ := by
  intro n
  induction n with
  | zero => intro a h ha _; omega
  | succ n ih =>
    intro a hn ha hf
    unfold getPageFrom
    rw [dif_pos ha]
    split
    · rename_i body heq
      rw [hf a ha] at heq
      simp at heq
    · rename_i err heq
      rw [hf a ha] at heq
      injection heq with heq2
      subst heq2
      by_cases hlt : a < maxRetries - 1
      · rw [if_pos hlt]
        rw [ih (a + 1) (by omega) (by omega) hf]
        have hr : maxRetries - a = (maxRetries - (a + 1)) + 1 := by omega
        have hr2 : maxRetries - (a + 1) = maxRetries - a - 1 := by omega
        simp only [FetchOutcome.mk.injEq, true_and]
        refine ⟨?_, by omega, by omega⟩
        rw [hr, List.range'_succ, List.map_cons, hr2]
      · rw [if_neg hlt]
        have h1 : maxRetries - a = 1 := by omega
        rw [h1]
        simp [List.range'_one]

/-- C6: the fetcher always returns a value (for a positive retry bound
it never falls off the loop, modelling that no exception escapes), and
when every attempt fails it makes exactly the configured number of
attempts with a fixed two-unit delay between consecutive attempts,
returns the failure pair, and prints a diagnostic containing the URL
and the last error. -/
theorem c6_fetcher_retry_contract (oracle : Nat → Except String String)
    (url : String) (e : Nat → String) (maxRetries : Nat)
    (hmax : 0 < maxRetries)
    (hfail : ∀ i, i < maxRetries → oracle i = Except.error (e i)) :
    (∀ oracle2 : Nat → Except String String,
        (get_page_content oracle2 url maxRetries).result.isSome = true) ∧
    (get_page_content oracle url maxRetries).result = some (none, false) ∧
    (get_page_content oracle url maxRetries).attempts = maxRetries ∧
    (get_page_content oracle url maxRetries).sleeps = 2 * (maxRetries - 1) ∧
    ∃ m ∈ (get_page_content oracle url maxRetries).log,
      url.data <:+: m.data ∧ (e (maxRetries - 1)).data <:+: m.data := by
  have hrun : get_page_content oracle url maxRetries =
      ⟨some (none, false),
       (List.range' 0 maxRetries).map (fun i => errMsg url i (e i)),
       2 * (maxRetries - 1), maxRetries⟩ := by
    have := getPageFrom_all_fail oracle url e maxRetries (maxRetries - 0) 0
      rfl hmax hfail
    simpa [get_page_content] using this
  refine ⟨?_, ?_, ?_, ?_, ?_⟩
  · intro oracle2
    exact getPageFrom_result_isSome oracle2 url maxRetries (maxRetries - 0) 0
      rfl hmax
  · rw [hrun]
  · rw [hrun]
  · rw [hrun]
  · refine ⟨errMsg url (maxRetries - 1) (e (maxRetries - 1)), ?_, ?_, ?_⟩
    · rw [hrun]
      simp only [List.mem_map]
      refine ⟨maxRetries - 1, ?_, rfl⟩
      rw [List.mem_range']
      exact ⟨maxRetries - 1, by omega, by omega⟩
    · exact ⟨"Error fetching ".data,
        (" (attempt " ++ toString (maxRetries - 1 + 1) ++ "): ").data ++
          (e (maxRetries - 1)).data,
        by rw [errMsg_data]⟩
    · exact ⟨"Error fetching ".data ++ url.data ++
          (" (attempt " ++ toString (maxRetries - 1 + 1) ++ "): ").data,
        [],
        by rw [errMsg_data]; simp [List.append_assoc]⟩

/-- C6 witness: three failing attempts with the default retry bound. -/
theorem c6_fetcher_retry_contract_witness :
    (get_page_content (fun i => Except.error (toString i)) "http://u" 3).result =
      some (none, false) ∧
    (get_page_content (fun i => Except.error (toString i)) "http://u" 3).attempts = 3 ∧
    (get_page_content (fun i => Except.error (toString i)) "http://u" 3).sleeps = 4 :=
  have h := c6_fetcher_retry_contract (fun i => Except.error (toString i))
    "http://u" (fun i => toString i) 3 (by omega) (fun i _ => rfl)
  ⟨h.2.1, h.2.2.1, h.2.2.2.1⟩

/-- C7: when the chapter has a link and the fetch of the lectures view
fails, create_chapter_views still fetches the notes view, and when that
fetch succeeds the notes index page is still written; the lectures
index page is not written. -/
theorem c7_notes_survive_lectures_failure (fetch : String → Option String)
    (ch : ChapterRecord) (path link content : String)
    (hlink : ch.link = some link) (hne : link ≠ "")
    (hlec : fetch (geturl (derive_view_url (urlparseM link) "lectures")) = none)
    (hnotes : fetch (geturl (derive_view_url (urlparseM link) "notes")) =
      some content) :
    TraceOp.fetchUrl (geturl (derive_view_url (urlparseM link) "notes")) ∈
      create_chapter_views fetch ch path ∧
    TraceOp.write (pjoin (pjoin path "Notes") "index.html") content ∈
      create_chapter_views fetch ch path ∧
    ∀ c, TraceOp.write (pjoin (pjoin path "Lectures") "index.html") c ∉
      create_chapter_views fetch ch path ∨
        pjoin (pjoin path "Lectures") "index.html" =
          pjoin (pjoin path "Notes") "index.html" := by
  have ht : truthyOpt ch.link = true := by
    rw [hlink]
    simp [truthyOpt, hne]
  have hg : ch.link.getD "" = link := by rw [hlink]; rfl
  have htrace : create_chapter_views fetch ch path =
      TraceOp.mkdir (pjoin path "Lectures") ::
        ([TraceOp.fetchUrl (geturl (derive_view_url (urlparseM link) "lectures"))] ++
         TraceOp.mkdir (pjoin path "Notes") ::
           (TraceOp.fetchUrl (geturl (derive_view_url (urlparseM link) "notes")) ::
            save_html content (pjoin (pjoin path "Notes") "index.html") ++
              [TraceOp.logLine ("Created " ++ "notes" ++ " index.html at " ++
                pjoin (pjoin path "Notes") "index.html")])) := by
    unfold create_chapter_views
    rw [ht, hg]
    simp only [if_true, chapterViewBlock, hlec, hnotes]
    simp [List.cons_append]
  refine ⟨?_, ?_, ?_⟩
  · rw [htrace]; simp [save_html]
  · rw [htrace]; simp [save_html]
  · intro c
    by_cases heq : pjoin (pjoin path "Lectures") "index.html" =
        pjoin (pjoin path "Notes") "index.html"
    · right; exact heq
    · left
      rw [htrace]
      simp [save_html, heq]

/-- C7 witness: a concrete chapter whose lectures fetch fails and whose
notes fetch succeeds. -/
theorem c7_notes_survive_lectures_failure_witness :
    TraceOp.fetchUrl (geturl (derive_view_url (urlparseM "http://h/c?x=1") "notes")) ∈
      create_chapter_views
        (fun u => if u = "http://h/c?x=1&view=notes" then some "N" else none)
        ⟨"Ch", some "http://h/c?x=1", "", 0, 0⟩ "/out/B/Ch" ∧
    TraceOp.write (pjoin (pjoin "/out/B/Ch" "Notes") "index.html") "N" ∈
      create_chapter_views
        (fun u => if u = "http://h/c?x=1&view=notes" then some "N" else none)
        ⟨"Ch", some "http://h/c?x=1", "", 0, 0⟩ "/out/B/Ch" :=
  have h := c7_notes_survive_lectures_failure
    (fun u => if u = "http://h/c?x=1&view=notes" then some "N" else none)
    ⟨"Ch", some "http://h/c?x=1", "", 0, 0⟩ "/out/B/Ch" "http://h/c?x=1" "N"
    rfl (by decide) (by decide) (by decide)
  ⟨h.1, h.2.1⟩

/-! ### The sanitiser -/

theorem collapseWs_single_ws {d : Char} (hd : pyWs d = true) :
    collapseWs [d] = [' '] := by
  simp [collapseWs, hd]

theorem collapseWs_ws_ws {d d1 : Char} {tail : List Char}
    (hd : pyWs d = true) (hd1 : pyWs d1 = true) :
    collapseWs (d :: d1 :: tail) = collapseWs (d1 :: tail) := by
  simp only [collapseWs, hd, if_true]
  rw [if_pos hd1]

theorem collapseWs_ws_nonws {d d1 : Char} {tail : List Char}
    (hd : pyWs d = true) (hd1 : pyWs d1 = false) :
    collapseWs (d :: d1 :: tail) = ' ' :: collapseWs (d1 :: tail) := by
  simp only [collapseWs, hd, if_true]
  rw [if_neg (by rw [hd1]; exact Bool.false_ne_true)]

theorem collapseWs_nonws {d : Char} {tail : List Char} (hd : pyWs d = false) :
    collapseWs (d :: tail) = d :: collapseWs tail := by
  cases tail <;> simp [collapseWs, hd]

theorem head?_collapseWs_nonws (d : Char) (t : List Char)
    (hd : pyWs d = false) : (collapseWs (d :: t)).head? = some d := by
  rw [collapseWs_nonws hd]
  rfl

theorem mem_of_collapseWs {c : Char} {l : List Char} :
    c ∈ collapseWs l → c ∈ l ∨ c = ' ' := by
  induction l using collapseWs.induct with
  | case1 => intro h; simp [collapseWs] at h
  | case2 d hd =>
    intro h
    rw [collapseWs_single_ws hd] at h
    right
    simpa using h
  | case3 d hd d1 tail hd1 ih =>
    intro h
    rw [collapseWs_ws_ws hd hd1] at h
    rcases ih h with h2 | h2
    · left; exact List.mem_cons_of_mem d h2
    · right; exact h2
  | case4 d hd d1 tail hd1 ih =>
    simp only [Bool.not_eq_true] at hd1
    intro h
    rw [collapseWs_ws_nonws hd hd1] at h
    rcases List.mem_cons.mp h with h2 | h2
    · right; exact h2
    · rcases ih h2 with h3 | h3
      · left; exact List.mem_cons_of_mem d h3
      · right; exact h3
  | case5 d tail hd ih =>
    simp only [Bool.not_eq_true] at hd
    intro h
    rw [collapseWs_nonws hd] at h
    rcases List.mem_cons.mp h with h2 | h2
    · left; rw [h2]; exact List.mem_cons_self d tail
    · rcases ih h2 with h3 | h3
      · left; exact List.mem_cons_of_mem d h3
      · right; exact h3

theorem pyWs_mem_collapseWs {c : Char} {l : List Char} :
    c ∈ collapseWs l → pyWs c = true → c = ' ' := by
  induction l using collapseWs.induct with
  | case1 => intro h _; simp [collapseWs] at h
  | case2 d hd =>
    intro h _
    rw [collapseWs_single_ws hd] at h
    simpa using h
  | case3 d hd d1 tail hd1 ih =>
    intro h hw
    rw [collapseWs_ws_ws hd hd1] at h
    exact ih h hw
  | case4 d hd d1 tail hd1 ih =>
    simp only [Bool.not_eq_true] at hd1
    intro h hw
    rw [collapseWs_ws_nonws hd hd1] at h
    rcases List.mem_cons.mp h with h2 | h2
    · exact h2
    · exact ih h2 hw
  | case5 d tail hd ih =>
    simp only [Bool.not_eq_true] at hd
    intro h hw
    rw [collapseWs_nonws hd] at h
    rcases List.mem_cons.mp h with h2 | h2
    · rw [h2] at hw; rw [hw] at hd; exact absurd hd (by simp)
    · exact ih h2 hw

theorem nwr_tail {a : Char} {l : List Char} (h : noWsRun (a :: l) = true) :
    noWsRun l = true := by
  match l with
  | [] => rfl
  | b :: t =>
    unfold noWsRun at h
    rw [Bool.and_eq_true] at h
    exact h.2

theorem nwr_cons_nonws {a : Char} {l : List Char} (ha : pyWs a = false)
    (h : noWsRun l = true) : noWsRun (a :: l) = true := by
  match l with
  | [] => rfl
  | b :: t =>
    unfold noWsRun
    rw [Bool.and_eq_true]
    exact ⟨by rw [ha]; rfl, h⟩

theorem nwr_cons_head {a : Char} {l : List Char}
    (hl : ∀ b, l.head? = some b → pyWs b = false)
    (h : noWsRun l = true) : noWsRun (a :: l) = true := by
  match l with
  | [] => rfl
  | b :: t =>
    unfold noWsRun
    rw [Bool.and_eq_true]
    refine ⟨?_, h⟩
    rw [hl b rfl]
    simp

theorem nwr_collapseWs (l : List Char) : noWsRun (collapseWs l) = true := by
  induction l using collapseWs.induct with
  | case1 => rfl
  | case2 d hd => rw [collapseWs_single_ws hd]; rfl
  | case3 d hd d1 tail hd1 ih => rw [collapseWs_ws_ws hd hd1]; exact ih
  | case4 d hd d1 tail hd1 ih =>
    simp only [Bool.not_eq_true] at hd1
    rw [collapseWs_ws_nonws hd hd1]
    refine nwr_cons_head ?_ ih
    intro b hb
    rw [head?_collapseWs_nonws d1 tail hd1] at hb
    cases hb
    exact hd1
  | case5 d tail hd ih =>
    simp only [Bool.not_eq_true] at hd
    rw [collapseWs_nonws hd]
    exact nwr_cons_nonws hd ih

theorem nwr_append_left : ∀ (s t : List Char),
    noWsRun (s ++ t) = true → noWsRun s = true
  | [], _, _ => rfl
  | [a], _, _ => rfl
  | a :: b :: s, t, h => by
    simp only [List.cons_append, noWsRun] at h
    simp only [noWsRun]
    rw [Bool.and_eq_true] at h ⊢
    exact ⟨h.1, nwr_append_left (b :: s) t h.2⟩

theorem nwr_dropWhile (p : Char → Bool) :
    ∀ (l : List Char), noWsRun l = true → noWsRun (l.dropWhile p) = true
  | [], h => h
  | a :: t, h => by
    rw [List.dropWhile_cons]
    split
    · exact nwr_dropWhile p t (nwr_tail h)
    · exact h

theorem head?_dropWhile_false (p : Char → Bool) :
    ∀ (l : List Char) (c : Char), (l.dropWhile p).head? = some c → p c = false
  | [], c, h => by simp at h
  | a :: t, c, h => by
    rw [List.dropWhile_cons] at h
    split at h
    · exact head?_dropWhile_false p t c h
    · rename_i ha
      cases h
      exact Bool.not_eq_true _ ▸ ha

theorem dropWhile_eq_self_of_head (p : Char → Bool) (l : List Char)
    (h : ∀ c, l.head? = some c → p c = false) : l.dropWhile p = l := by
  match l with
  | [] => rfl
  | a :: t =>
    rw [List.dropWhile_cons, if_neg]
    rw [h a rfl]
    exact Bool.false_ne_true

theorem stripWs_append_aux (x : List Char) :
    stripWs x ++ ((x.dropWhile pyWs).reverse.takeWhile pyWs).reverse =
      x.dropWhile pyWs := by
  unfold stripWs
  rw [← List.reverse_append, List.takeWhile_append_dropWhile,
    List.reverse_reverse]

theorem mem_stripWs {c : Char} {x : List Char} (h : c ∈ stripWs x) : c ∈ x := by
  have h2 : c ∈ x.dropWhile pyWs := by
    rw [← stripWs_append_aux x]
    exact List.mem_append_left _ h
  have h3 := List.dropWhile_sublist (p := pyWs) (l := x)
  exact h3.mem h2

theorem nwr_stripWs {x : List Char} (h : noWsRun x = true) :
    noWsRun (stripWs x) = true := by
  have h2 : noWsRun (x.dropWhile pyWs) = true := nwr_dropWhile pyWs x h
  rw [← stripWs_append_aux x] at h2
  exact nwr_append_left _ _ h2

theorem head?_stripWs {c : Char} {x : List Char}
    (h : (stripWs x).head? = some c) : pyWs c = false := by
  have h2 : (x.dropWhile pyWs).head? = some c := by
    rw [← stripWs_append_aux x]
    match hs : stripWs x, h with
    | a :: t, h => rw [List.cons_append]; cases h; rfl
  exact head?_dropWhile_false pyWs x c h2

theorem revhead_stripWs {c : Char} {x : List Char}
    (h : (stripWs x).reverse.head? = some c) : pyWs c = false := by
  unfold stripWs at h
  rw [List.reverse_reverse] at h
  exact head?_dropWhile_false pyWs _ c h

theorem stripWs_eq_self_of (x : List Char)
    (h1 : ∀ c, x.head? = some c → pyWs c = false)
    (h2 : ∀ c, x.reverse.head? = some c → pyWs c = false) : stripWs x = x := by
  unfold stripWs
  rw [dropWhile_eq_self_of_head pyWs x h1,
    dropWhile_eq_self_of_head pyWs x.reverse h2, List.reverse_reverse]

theorem mem_take_of_mem {c : Char} {l : List Char} {n : Nat}
    (h : c ∈ l.take n) : c ∈ l := by
  rw [← List.take_append_drop n l]
  exact List.mem_append_left _ h

theorem nwr_take {l : List Char} {n : Nat} (h : noWsRun l = true) :
    noWsRun (l.take n) = true := by
  rw [← List.take_append_drop n l] at h
  exact nwr_append_left _ _ h

theorem head?_take {c : Char} {l : List Char} {n : Nat}
    (h : (l.take n).head? = some c) : l.head? = some c := by
  match n, l, h with
  | n + 1, a :: t, h => cases h; rfl

theorem stripWs_idem (x : List Char) : stripWs (stripWs x) = stripWs x :=
  stripWs_eq_self_of (stripWs x) (fun _ hc => head?_stripWs hc)
    (fun _ hc => revhead_stripWs hc)

theorem collapseWs_eq_self (l : List Char) :
    (∀ c ∈ l, pyWs c = true → c = ' ') → noWsRun l = true →
      collapseWs l = l := by
  induction l using collapseWs.induct with
  | case1 => intro _ _; rfl
  | case2 d hd =>
    intro hws _
    rw [collapseWs_single_ws hd, hws d (by simp) hd]
  | case3 d hd d1 tail hd1 ih =>
    intro _ hnwr
    exfalso
    unfold noWsRun at hnwr
    rw [Bool.and_eq_true] at hnwr
    have h1 := hnwr.1
    rw [hd, hd1] at h1
    simp at h1
  | case4 d hd d1 tail hd1 ih =>
    simp only [Bool.not_eq_true] at hd1
    intro hws hnwr
    rw [collapseWs_ws_nonws hd hd1,
      ih (fun c hc hw => hws c (List.mem_cons_of_mem d hc) hw)
        (nwr_tail hnwr),
      hws d (by simp) hd]
  | case5 d tail hd ih =>
    simp only [Bool.not_eq_true] at hd
    intro hws hnwr
    rw [collapseWs_nonws hd,
      ih (fun c hc hw => hws c (List.mem_cons_of_mem d hc) hw)
        (nwr_tail hnwr)]

/-- C2 counterexample: on the 101-character raw name made of
ninety-nine letters, one space and one letter, clean_filename strips
first and truncates afterwards, so the result ends in a space and is
not equal to its own trimmed form. -/
theorem c2_trimmed_form_counterexample :
    clean_filename ⟨List.replicate 99 'a' ++ [' ', 'b']⟩ =
      ⟨List.replicate 99 'a' ++ [' ']⟩ ∧
    stripStr (clean_filename ⟨List.replicate 99 'a' ++ [' ', 'b']⟩) ≠
      clean_filename ⟨List.replicate 99 'a' ++ [' ', 'b']⟩ := by
  constructor
  · decide
  · decide

/-- C2 (amended): for every raw name, clean_filename contains none of
the forbidden characters, has no run of two or more adjacent whitespace
characters, never starts with whitespace, and has length at most 100
characters; furthermore, when no truncation occurs (the stripped
collapsed form is already within 100 characters) the result does equal
its own whitespace-trimmed form.  The original claim fails only in that
truncation after stripping can leave one trailing space. -/
theorem c2_sanitizer_contract (n : String) :
    (∀ c ∈ (clean_filename n).data, badChars.contains c = false) ∧
    noWsRun (clean_filename n).data = true ∧
    (∀ c, (clean_filename n).data.head? = some c → pyWs c = false) ∧
    (clean_filename n).data.length ≤ 100 ∧
    ((stripWs (collapseWs (removeBad n.data))).length ≤ 100 →
      stripStr (clean_filename n) = clean_filename n) := by
  have hdata : (clean_filename n).data = cleanChars n.data := rfl
  refine ⟨?_, ?_, ?_, ?_, ?_⟩
  · intro c hc
    rw [hdata] at hc
    rcases mem_of_collapseWs (mem_stripWs (mem_take_of_mem hc)) with h3 | h3
    · have h4 := (List.mem_filter.mp h3).2
      simpa using h4
    · rw [h3]; decide
  · rw [hdata]
    exact nwr_take (nwr_stripWs (nwr_collapseWs _))
  · intro c hc
    rw [hdata] at hc
    exact head?_stripWs (head?_take hc)
  · rw [hdata]
    show ((stripWs (collapseWs (removeBad n.data))).take 100).length ≤ 100
    rw [List.length_take]
    exact min_le_left _ _
  · intro hlen
    have htake : cleanChars n.data = stripWs (collapseWs (removeBad n.data)) :=
      List.take_of_length_le hlen
    show (⟨stripWs (clean_filename n).data⟩ : String) = clean_filename n
    rw [hdata, htake, stripWs_idem, ← htake]
    rfl

/-- C2 witness: the closed conjuncts of the contract at a concrete
name for which no truncation occurs. -/
theorem c2_sanitizer_contract_witness :
    noWsRun (clean_filename " a  b< ").data = true ∧
    (clean_filename " a  b< ").data.length ≤ 100 ∧
    stripStr (clean_filename " a  b< ") = clean_filename " a  b< " :=
  have h := c2_sanitizer_contract " a  b< "
  ⟨h.2.1, h.2.2.2.1, h.2.2.2.2 (by decide)⟩

/-- C3 counterexample: clean_filename is not idempotent on the
101-character name whose truncation exposes a trailing space; the
second application strips that space away. -/
theorem c3_idempotence_counterexample :
    clean_filename (clean_filename ⟨List.replicate 99 'a' ++ [' ', 'b']⟩) ≠
      clean_filename ⟨List.replicate 99 'a' ++ [' ', 'b']⟩ := by
  decide

/-- C3 (amended): clean_filename is idempotent on every raw name whose
sanitised result does not end in whitespace, which is every name except
those where truncation at the 100-character bound cuts directly after
an interior space. -/
theorem c3_idempotent_without_trailing_ws (n : String)
    (h : ∀ c, (clean_filename n).data.reverse.head? = some c →
      pyWs c = false) :
    clean_filename (clean_filename n) = clean_filename n := by
  have hws : ∀ c ∈ cleanChars n.data, pyWs c = true → c = ' ' :=
    fun _ hc hw => pyWs_mem_collapseWs (mem_stripWs (mem_take_of_mem hc)) hw
  have hnwr : noWsRun (cleanChars n.data) = true :=
    nwr_take (nwr_stripWs (nwr_collapseWs _))
  have hnobad : ∀ c ∈ cleanChars n.data, (!badChars.contains c) = true := by
    intro c hc
    rcases mem_of_collapseWs (mem_stripWs (mem_take_of_mem hc)) with h3 | h3
    · exact (List.mem_filter.mp h3).2
    · rw [h3]; decide
  have h1 : removeBad (cleanChars n.data) = cleanChars n.data :=
    List.filter_eq_self.mpr hnobad
  have h2 : collapseWs (cleanChars n.data) = cleanChars n.data :=
    collapseWs_eq_self _ hws hnwr
  have hhead : ∀ c, (cleanChars n.data).head? = some c → pyWs c = false :=
    fun _ hc => head?_stripWs (head?_take hc)
  have h3 : stripWs (cleanChars n.data) = cleanChars n.data :=
    stripWs_eq_self_of _ hhead h
  have h4 : (cleanChars n.data).take 100 = cleanChars n.data := by
    apply List.take_of_length_le
    show ((stripWs (collapseWs (removeBad n.data))).take 100).length ≤ 100
    rw [List.length_take]
    exact min_le_left _ _
  have hfinal : cleanChars (cleanChars n.data) = cleanChars n.data := by
    show (stripWs (collapseWs (removeBad (cleanChars n.data)))).take 100 =
      cleanChars n.data
    rw [h1, h2, h3, h4]
  show (⟨cleanChars (clean_filename n).data⟩ : String) = clean_filename n
  have hd : (clean_filename n).data = cleanChars n.data := rfl
  rw [hd, hfinal]
  rfl

/-- C3 witness: idempotence at a concrete name. -/
theorem c3_idempotent_without_trailing_ws_witness :
    clean_filename (clean_filename " a  b ") = clean_filename " a  b " :=
  c3_idempotent_without_trailing_ws " a  b " (by
    intro c hc
    have h2 : 'b' = c :=
      Option.some.inj (show some 'b' = some c from hc)
    rw [← h2]
    rfl)

/-! ### Batch extraction -/

/-- C4 counterexample: a batch item that has a study link but neither a
data attribute nor a nested title element is not skipped: the extractor
returns for it a record whose name is the empty string. -/
theorem c4_empty_name_counterexample :
    (extract_batches (fun _ u => u) "http://m"
        [⟨none, none, some "x.html", none⟩]).map BatchRecord.name = [""] := by
  rfl

/-- C4 (amended): extract_batches skips exactly the items that lack a
study link.  An item with no study link yields no record; an item with
a study link yields one record even when neither the data attribute nor
the title element provides a name, and in that case the name of the
record is the empty string.  The original claim fails because a
nameless item with a link is not skipped. -/
theorem c4_skip_is_by_link_not_name (urljoin : String → String → String)
    (url : String) (d : BatchDiv)
    (hname : d.dataBatchName = none ∨ d.dataBatchName = some "")
    (htitle : ∀ t, d.titleText = some t → stripStr t = "") :
    (d.studyHref = none → extract_batches urljoin url [d] = []) ∧
    (∀ h, d.studyHref = some h →
      ∃ r, extract_batches urljoin url [d] = [r] ∧ r.name = "") := by
  have hname0 : d.dataBatchName.getD "" = "" := by
    rcases hname with h1 | h1 <;> rw [h1] <;> rfl
  constructor
  · intro hnone
    unfold extract_batches
    rw [List.filterMap_cons]
    have : extractBatchDiv urljoin url d = none := by
      unfold extractBatchDiv
      rw [hnone]
    rw [this]
    rfl
  · intro h hsome
    have hval : ∃ r, extractBatchDiv urljoin url d = some r ∧ r.name = "" := by
      unfold extractBatchDiv
      rw [hsome, hname0]
      refine ⟨_, rfl, ?_⟩
      rw [if_pos (show ("" : String) = "" from rfl)]
      cases ht : d.titleText with
      | none => rfl
      | some t => exact htitle t ht
    rcases hval with ⟨r, hr, hrname⟩
    refine ⟨r, ?_, hrname⟩
    unfold extract_batches
    rw [List.filterMap_cons, hr]
    rfl

/-- C4 witness: a linkless item is skipped. -/
theorem c4_skip_is_by_link_not_name_witness :
    extract_batches (fun _ u => u) "http://m" [⟨none, none, none, none⟩] = [] :=
  (c4_skip_is_by_link_not_name (fun _ u => u) "http://m"
    ⟨none, none, none, none⟩ (Or.inl rfl) (fun t ht => by cases ht)).1 rfl

/-! ### Query-string round trip -/

theorem alwaysSafe_ne {c : Char} (h : alwaysSafe c = true) :
    c ≠ '&' ∧ c ≠ '=' ∧ c ≠ '+' ∧ c ≠ '%' := by
  refine ⟨?_, ?_, ?_, ?_⟩ <;> intro hc <;> subst hc <;> exact absurd h (by decide)

theorem unquoteChars_safe (l : List Char) :
    l.all alwaysSafe = true → unquoteChars l = l := by
  induction l using unquoteChars.induct with
  | case1 => intro _; rfl
  | case2 a b rest x y hb ha ih =>
    intro h
    rw [List.all_cons] at h
    exact absurd (Bool.and_eq_true .. ▸ h).1 (by decide)
  | case3 a b rest hcond ih =>
    intro h
    rw [List.all_cons] at h
    exact absurd (Bool.and_eq_true .. ▸ h).1 (by decide)
  | case4 c rest hcond ih =>
    intro h
    rw [List.all_cons, Bool.and_eq_true] at h
    have hc : c ≠ '%' := (alwaysSafe_ne h.1).2.2.2
    cases rest with
    | nil => simp [unquoteChars]
    | cons a t =>
      cases t with
      | nil => simp [unquoteChars, ih h.2]
      | cons b t2 => simp [unquoteChars, hc, ih h.2]

theorem plusMap_safe : ∀ (l : List Char), l.all alwaysSafe = true →
    l.map (fun c => if c = '+' then ' ' else c) = l
  | [], _ => rfl
  | c :: rest, h => by
    rw [List.all_cons, Bool.and_eq_true] at h
    rw [List.map_cons, plusMap_safe rest h.2, if_neg (alwaysSafe_ne h.1).2.2.1]

theorem unquotePlus_safe (l : List Char) (h : l.all alwaysSafe = true) :
    unquotePlus l = l := by
  unfold unquotePlus
  rw [plusMap_safe l h]
  exact unquoteChars_safe l h

theorem quoteCharPlus_safe {c : Char} (h : alwaysSafe c = true) :
    quoteCharPlus c = [c] := by
  unfold quoteCharPlus
  rw [if_pos h]

theorem quotePlus_safe (l : List Char) (h : l.all alwaysSafe = true) :
    quotePlus l = l := by
  induction l with
  | nil => rfl
  | cons c rest ih =>
    rw [List.all_cons, Bool.and_eq_true] at h
    show quoteCharPlus c ++ rest.flatMap quoteCharPlus = c :: rest
    rw [quoteCharPlus_safe h.1]
    have ih2 : rest.flatMap quoteCharPlus = rest := ih h.2
    rw [ih2]
    rfl

theorem splitChar_ne_nil (sep : Char) : ∀ (l : List Char), splitChar sep l ≠ []
  | [] => by simp [splitChar]
  | c :: rest => by
    unfold splitChar
    cases hs : splitChar sep rest with
    | nil => simp
    | cons h t =>
      by_cases hc : c = sep <;> simp [hc]

theorem splitChar_not_mem (sep : Char) : ∀ (p : List Char), sep ∉ p →
    splitChar sep p = [p]
  | [], _ => rfl
  | c :: rest, h => by
    have ih := splitChar_not_mem sep rest (fun hm => h (List.mem_cons_of_mem c hm))
    have hc : ¬(c = sep) := fun hc => h (by rw [hc]; exact List.mem_cons_self _ _)
    unfold splitChar
    rw [ih]
    simp [hc]

theorem splitChar_append (sep : Char) : ∀ (p r : List Char), sep ∉ p →
    splitChar sep (p ++ sep :: r) = p :: splitChar sep r
  | [], r, _ => by
    cases hs : splitChar sep r with
    | nil => exact absurd hs (splitChar_ne_nil sep r)
    | cons h t =>
      show splitChar sep (sep :: r) = [] :: h :: t
      unfold splitChar
      rw [hs]
      simp
  | c :: p, r, hmem => by
    have ih := splitChar_append sep p r (fun hm => hmem (List.mem_cons_of_mem c hm))
    have hc : ¬(c = sep) := fun hc => hmem (by rw [hc]; exact List.mem_cons_self _ _)
    cases hs : splitChar sep r with
    | nil => exact absurd hs (splitChar_ne_nil sep r)
    | cons h t =>
      show splitChar sep (c :: (p ++ sep :: r)) = (c :: p) :: h :: t
      unfold splitChar
      rw [ih, hs]
      simp [hc]

theorem splitFirst_append (sep : Char) : ∀ (k v : List Char), sep ∉ k →
    splitFirst sep (k ++ sep :: v) = some (k, v)
  | [], v, _ => by
    show splitFirst sep (sep :: v) = some ([], v)
    unfold splitFirst
    rw [if_pos rfl]
  | c :: k, v, hmem => by
    have ih := splitFirst_append sep k v (fun hm => hmem (List.mem_cons_of_mem c hm))
    have hc : ¬(c = sep) := fun hc => hmem (by rw [hc]; exact List.mem_cons_self _ _)
    show splitFirst sep (c :: (k ++ sep :: v)) = some (c :: k, v)
    unfold splitFirst
    rw [if_neg hc, ih]
    rfl

theorem safe_not_mem {sep : Char} (hsep : alwaysSafe sep = false)
    {l : List Char} (h : l.all alwaysSafe = true) : sep ∉ l := by
  intro hm
  rw [List.all_eq_true] at h
  rw [h sep hm] at hsep
  exact Bool.noConfusion hsep

theorem serializeQs_one (p : List Char × List Char) :
    serializeQs [p] = p.1 ++ '=' :: p.2 := by
  unfold serializeQs
  simp [List.intercalate]

theorem serializeQs_cons2 (p q : List Char × List Char)
    (rest : List (List Char × List Char)) :
    serializeQs (p :: q :: rest) =
      (p.1 ++ '=' :: p.2) ++ '&' :: serializeQs (q :: rest) := by
  unfold serializeQs
  rw [List.map_cons]
  simp [List.intercalate, List.intersperse]

/-- The round trip of well-formed pairs through serialisation and
parse_qsl. -/
theorem parseQsl_serializeQs (pairs : List (List Char × List Char))
    (hsafe : ∀ p ∈ pairs, safePair p) :
    parseQsl (serializeQs pairs) = pairs := by
  induction pairs with
  | nil => rfl
  | cons p rest ih =>
    have hp := hsafe p (List.mem_cons_self p rest)
    have hkamp : '&' ∉ p.1 := safe_not_mem (by decide) hp.1
    have hkeq : '=' ∉ p.1 := safe_not_mem (by decide) hp.1
    have hvamp : '&' ∉ p.2 := safe_not_mem (by decide) hp.2.1
    have hfield : '&' ∉ p.1 ++ '=' :: p.2 := by
      intro hm
      rcases List.mem_append.mp hm with hm | hm
      · exact hkamp hm
      · rcases List.mem_cons.mp hm with hm | hm
        · exact absurd hm.symm (by decide)
        · exact hvamp hm
    have hsplit1 : splitFirst '=' (p.1 ++ '=' :: p.2) = some (p.1, p.2) :=
      splitFirst_append '=' p.1 p.2 hkeq
    have hfieldval : (if (p.1 ++ '=' :: p.2 : List Char) = [] then
        (none : Option (List Char × List Char))
      else match splitFirst '=' (p.1 ++ '=' :: p.2) with
        | none => none
        | some (n, v) =>
          if v = [] then none
          else some (unquotePlus n, unquotePlus v)) = some p := by
      rw [if_neg (by simp), hsplit1]
      show (if p.2 = [] then none
        else some (unquotePlus p.1, unquotePlus p.2)) = some p
      rw [if_neg hp.2.2, unquotePlus_safe p.1 hp.1, unquotePlus_safe p.2 hp.2.1]
    cases rest with
    | nil =>
      rw [serializeQs_one]
      unfold parseQsl
      rw [splitChar_not_mem '&' _ hfield, List.filterMap_cons, hfieldval]
      rfl
    | cons q rest2 =>
      have ih2 := ih (fun x hx => hsafe x (List.mem_cons_of_mem p hx))
      rw [serializeQs_cons2]
      unfold parseQsl
      rw [splitChar_append '&' _ _ hfield, List.filterMap_cons, hfieldval]
      unfold parseQsl at ih2
      rw [ih2]

theorem valuesOf_cons (k k1 : List Char) (v : List Char)
    (rest : List (List Char × List Char)) :
    valuesOf k ((k1, v) :: rest) =
      (if k1 = k then [v] else []) ++ valuesOf k rest := by
  unfold valuesOf
  rw [List.filter_cons]
  by_cases h : k1 = k
  · simp [h]
  · simp [h]

theorem valuesOf_append (k : List Char) (l1 l2 : List (List Char × List Char)) :
    valuesOf k (l1 ++ l2) = valuesOf k l1 ++ valuesOf k l2 := by
  unfold valuesOf
  rw [List.filter_append, List.map_append]

theorem flattenG_cons (k1 : List Char) (vs : List (List Char))
    (rest : List (List Char × List (List Char))) :
    flattenG ((k1, vs) :: rest) =
      vs.map (fun v => (k1, v)) ++ flattenG rest := by
  unfold flattenG
  rw [List.flatMap_cons]

theorem valuesOf_map_pair (k k1 : List Char) (vs : List (List Char)) :
    valuesOf k (vs.map (fun v => (k1, v))) = if k1 = k then vs else [] := by
  induction vs with
  | nil => by_cases h : k1 = k <;> simp [h, valuesOf]
  | cons v vs ih =>
    rw [List.map_cons, valuesOf_cons, ih]
    by_cases h : k1 = k <;> simp [h]

theorem valuesOf_flattenG_eq_nil (k : List Char) :
    ∀ (d : List (List Char × List (List Char))),
    (∀ p ∈ d, p.1 ≠ k) → valuesOf k (flattenG d) = []
  | [], _ => rfl
  | (k1, vs) :: rest, h => by
    rw [flattenG_cons, valuesOf_append, valuesOf_map_pair,
      if_neg (h (k1, vs) (List.mem_cons_self _ _)),
      valuesOf_flattenG_eq_nil k rest
        (fun p hp => h p (List.mem_cons_of_mem _ hp))]
    rfl

theorem insertVal_cons (k0 v k1 : List Char) (vs : List (List Char))
    (rest : List (List Char × List (List Char))) :
    insertVal k0 v ((k1, vs) :: rest) =
      if k1 = k0 then (k1, vs ++ [v]) :: rest
      else (k1, vs) :: insertVal k0 v rest := rfl

theorem setItem_cons (k0 : List Char) (vlist : List (List Char))
    (k1 : List Char) (vs : List (List Char))
    (rest : List (List Char × List (List Char))) :
    setItem k0 vlist ((k1, vs) :: rest) =
      if k1 = k0 then (k1, vlist) :: rest
      else (k1, vs) :: setItem k0 vlist rest := rfl

theorem valuesOf_flattenG_insertVal (k k0 v : List Char) :
    ∀ (d : List (List Char × List (List Char))),
    (d.map Prod.fst).Nodup →
    valuesOf k (flattenG (insertVal k0 v d)) =
      valuesOf k (flattenG d) ++ (if k0 = k then [v] else [])
  | [], _ => by
    show valuesOf k (flattenG [(k0, [v])]) = _
    rw [flattenG_cons, valuesOf_append, valuesOf_map_pair]
    simp [flattenG, valuesOf]
  | (k1, vs) :: rest, hnd => by
    rw [List.map_cons, List.nodup_cons] at hnd
    by_cases h10 : k1 = k0
    · rw [insertVal_cons, if_pos h10]
      rw [flattenG_cons, flattenG_cons, valuesOf_append, valuesOf_append,
        valuesOf_map_pair, valuesOf_map_pair]
      by_cases h1k : k1 = k
      · rw [if_pos h1k, if_pos h1k, if_pos (h10 ▸ h1k)]
        have hrest : valuesOf k (flattenG rest) = [] := by
          apply valuesOf_flattenG_eq_nil
          intro p hp hpk
          apply hnd.1
          show k1 ∈ List.map Prod.fst rest
          rw [h1k, ← hpk]
          exact List.mem_map_of_mem Prod.fst hp
        rw [hrest]
        simp
      · rw [if_neg h1k, if_neg h1k, if_neg (h10 ▸ h1k)]
        simp
    · rw [insertVal_cons, if_neg h10]
      rw [flattenG_cons, flattenG_cons, valuesOf_append, valuesOf_append,
        valuesOf_flattenG_insertVal k k0 v rest hnd.2, List.append_assoc]

theorem keys_insertVal (k0 v : List Char) :
    ∀ (d : List (List Char × List (List Char))),
    (insertVal k0 v d).map Prod.fst =
      if k0 ∈ d.map Prod.fst then d.map Prod.fst else d.map Prod.fst ++ [k0]
  | [] => by simp [insertVal]
  | (k1, vs) :: rest => by
    by_cases h10 : k1 = k0
    · have hmem : k0 ∈ List.map Prod.fst ((k1, vs) :: rest) := by
        rw [List.map_cons, ← h10]
        exact List.mem_cons_self _ _
      rw [insertVal_cons, if_pos h10, if_pos hmem]
      rfl
    · rw [insertVal_cons, if_neg h10, List.map_cons, List.map_cons,
        keys_insertVal k0 v rest]
      by_cases hmem : k0 ∈ rest.map Prod.fst
      · rw [if_pos hmem, if_pos (List.mem_cons_of_mem _ hmem)]
      · rw [if_neg hmem, if_neg (show ¬(k0 ∈ (k1, vs).1 :: rest.map Prod.fst) by
          intro hc
          rcases List.mem_cons.mp hc with hc | hc
          · exact h10 hc.symm
          · exact hmem hc)]
        rfl

theorem nodup_keys_insertVal (k0 v : List Char)
    (d : List (List Char × List (List Char)))
    (hnd : (d.map Prod.fst).Nodup) :
    ((insertVal k0 v d).map Prod.fst).Nodup := by
  rw [keys_insertVal]
  by_cases hmem : k0 ∈ d.map Prod.fst
  · rw [if_pos hmem]; exact hnd
  · rw [if_neg hmem]
    simp [List.nodup_append, hnd, hmem]

theorem nodup_keys_foldl_insert :
    ∀ (l : List (List Char × List Char))
      (d : List (List Char × List (List Char))),
    (d.map Prod.fst).Nodup →
    (((l.foldl (fun d p => insertVal p.1 p.2 d) d)).map Prod.fst).Nodup
  | [], _, h => h
  | p :: l, d, h => by
    rw [List.foldl_cons]
    exact nodup_keys_foldl_insert l (insertVal p.1 p.2 d)
      (nodup_keys_insertVal p.1 p.2 d h)

theorem valuesOf_foldl_insert (k : List Char) :
    ∀ (l : List (List Char × List Char))
      (d : List (List Char × List (List Char))),
    (d.map Prod.fst).Nodup →
    valuesOf k (flattenG (l.foldl (fun d p => insertVal p.1 p.2 d) d)) =
      valuesOf k (flattenG d) ++ valuesOf k l
  | [], d, _ => by
    show valuesOf k (flattenG d) = valuesOf k (flattenG d) ++ valuesOf k []
    rw [show valuesOf k ([] : List (List Char × List Char)) = [] from rfl]
    rw [List.append_nil]
  | p :: l, d, h => by
    rw [List.foldl_cons,
      valuesOf_foldl_insert k l (insertVal p.1 p.2 d)
        (nodup_keys_insertVal p.1 p.2 d h),
      valuesOf_flattenG_insertVal k p.1 p.2 d h,
      valuesOf_cons, List.append_assoc]

theorem valuesOf_flattenG_setItem (k k0 : List Char) (vlist : List (List Char)) :
    ∀ (d : List (List Char × List (List Char))),
    (d.map Prod.fst).Nodup →
    valuesOf k (flattenG (setItem k0 vlist d)) =
      if k0 = k then vlist else valuesOf k (flattenG d)
  | [], _ => by
    show valuesOf k (flattenG [(k0, vlist)]) = _
    rw [flattenG_cons, valuesOf_append, valuesOf_map_pair]
    by_cases h : k0 = k
    · rw [if_pos h, if_pos h]
      show vlist ++ valuesOf k (flattenG []) = vlist
      simp [flattenG, valuesOf]
    · rw [if_neg h, if_neg h]
      rfl
  | (k1, vs) :: rest, hnd => by
    rw [List.map_cons, List.nodup_cons] at hnd
    by_cases h10 : k1 = k0
    · rw [setItem_cons, if_pos h10]
      rw [flattenG_cons, flattenG_cons, valuesOf_append, valuesOf_append,
        valuesOf_map_pair, valuesOf_map_pair]
      by_cases h0k : k0 = k
      · rw [if_pos (h10 ▸ h0k : k1 = k), if_pos h0k]
        have hrest : valuesOf k (flattenG rest) = [] := by
          apply valuesOf_flattenG_eq_nil
          intro p hp hpk
          apply hnd.1
          show k1 ∈ List.map Prod.fst rest
          rw [h10, h0k, ← hpk]
          exact List.mem_map_of_mem Prod.fst hp
        rw [hrest]
        simp
      · have h1k : ¬(k1 = k) := fun hc => h0k (h10 ▸ hc)
        rw [if_neg h1k, if_neg h1k, if_neg h0k]
    · rw [setItem_cons, if_neg h10]
      rw [flattenG_cons, flattenG_cons, valuesOf_append, valuesOf_append,
        valuesOf_flattenG_setItem k k0 vlist rest hnd.2,
        valuesOf_map_pair]
      by_cases h0k : k0 = k
      · have h1k : ¬(k1 = k) := fun hc => h10 (by rw [hc, h0k])
        rw [if_pos h0k, if_pos h0k, if_neg h1k]
        rfl
      · rw [if_neg h0k, if_neg h0k]

theorem urlencode_fields_eq :
    ∀ (d : List (List Char × List (List Char))),
    (∀ p ∈ d, p.1.all alwaysSafe = true ∧
      ∀ v ∈ p.2, v.all alwaysSafe = true) →
    d.flatMap (fun p => p.2.map (fun v => quotePlus p.1 ++ '=' :: quotePlus v)) =
      (flattenG d).map (fun q => q.1 ++ '=' :: q.2)
  | [], _ => rfl
  | (k1, vs) :: rest, h => by
    rw [List.flatMap_cons, flattenG_cons, List.map_append,
      urlencode_fields_eq rest (fun p hp => h p (List.mem_cons_of_mem _ hp))]
    congr 1
    rw [List.map_map]
    apply List.map_congr_left
    intro v hv
    have hk := (h (k1, vs) (List.mem_cons_self _ _)).1
    have hv2 := (h (k1, vs) (List.mem_cons_self _ _)).2 v hv
    show quotePlus k1 ++ '=' :: quotePlus v = k1 ++ '=' :: v
    rw [quotePlus_safe _ hk, quotePlus_safe _ hv2]

theorem urlencodeDoseq_eq_serializeQs
    (d : List (List Char × List (List Char)))
    (h : ∀ p ∈ d, p.1.all alwaysSafe = true ∧
      ∀ v ∈ p.2, v.all alwaysSafe = true) :
    urlencodeDoseq d = serializeQs (flattenG d) := by
  unfold urlencodeDoseq serializeQs
  rw [urlencode_fields_eq d h]

theorem safeD_insertVal (k v : List Char)
    (hk : k.all alwaysSafe = true) (hv : v.all alwaysSafe = true) (hvne : v ≠ []) :
    ∀ (d : List (List Char × List (List Char))),
    (∀ p ∈ d, p.1.all alwaysSafe = true ∧
      ∀ w ∈ p.2, w.all alwaysSafe = true ∧ w ≠ []) →
    ∀ p ∈ insertVal k v d, p.1.all alwaysSafe = true ∧
      ∀ w ∈ p.2, w.all alwaysSafe = true ∧ w ≠ []
  | [], _, p, hp => by
    rcases List.mem_cons.mp hp with hp | hp
    · subst hp
      refine ⟨hk, ?_⟩
      intro w hw
      rcases List.mem_cons.mp hw with hw | hw
      · subst hw; exact ⟨hv, hvne⟩
      · cases hw
    · cases hp
  | (k1, vs) :: rest, hd, p, hp => by
    rw [insertVal_cons] at hp
    by_cases h10 : k1 = k
    · rw [if_pos h10] at hp
      rcases List.mem_cons.mp hp with hp | hp
      · subst hp
        refine ⟨(hd (k1, vs) (List.mem_cons_self _ _)).1, ?_⟩
        intro w hw
        rcases List.mem_append.mp hw with hw | hw
        · exact (hd (k1, vs) (List.mem_cons_self _ _)).2 w hw
        · rcases List.mem_cons.mp hw with hw | hw
          · subst hw; exact ⟨hv, hvne⟩
          · cases hw
      · exact hd p (List.mem_cons_of_mem _ hp)
    · rw [if_neg h10] at hp
      rcases List.mem_cons.mp hp with hp | hp
      · subst hp; exact hd (k1, vs) (List.mem_cons_self _ _)
      · exact safeD_insertVal k v hk hv hvne rest
          (fun q hq => hd q (List.mem_cons_of_mem _ hq)) p hp

theorem safeD_foldl :
    ∀ (l : List (List Char × List Char))
      (d : List (List Char × List (List Char))),
    (∀ p ∈ l, safePair p) →
    (∀ p ∈ d, p.1.all alwaysSafe = true ∧
      ∀ w ∈ p.2, w.all alwaysSafe = true ∧ w ≠ []) →
    ∀ p ∈ l.foldl (fun d p => insertVal p.1 p.2 d) d,
      p.1.all alwaysSafe = true ∧
      ∀ w ∈ p.2, w.all alwaysSafe = true ∧ w ≠ []
  | [], _, _, hd => hd
  | q :: l, d, hl, hd => by
    rw [List.foldl_cons]
    have hq := hl q (List.mem_cons_self _ _)
    exact safeD_foldl l (insertVal q.1 q.2 d)
      (fun p hp => hl p (List.mem_cons_of_mem _ hp))
      (safeD_insertVal q.1 q.2 hq.1 hq.2.1 hq.2.2 d hd)

theorem safeD_setItem (k : List Char) (vlist : List (List Char))
    (hk : k.all alwaysSafe = true)
    (hvl : ∀ w ∈ vlist, w.all alwaysSafe = true ∧ w ≠ []) :
    ∀ (d : List (List Char × List (List Char))),
    (∀ p ∈ d, p.1.all alwaysSafe = true ∧
      ∀ w ∈ p.2, w.all alwaysSafe = true ∧ w ≠ []) →
    ∀ p ∈ setItem k vlist d, p.1.all alwaysSafe = true ∧
      ∀ w ∈ p.2, w.all alwaysSafe = true ∧ w ≠ []
  | [], _, p, hp => by
    rcases List.mem_cons.mp hp with hp | hp
    · subst hp; exact ⟨hk, hvl⟩
    · cases hp
  | (k1, vs) :: rest, hd, p, hp => by
    rw [setItem_cons] at hp
    by_cases h10 : k1 = k
    · rw [if_pos h10] at hp
      rcases List.mem_cons.mp hp with hp | hp
      · subst hp
        exact ⟨(hd (k1, vs) (List.mem_cons_self _ _)).1, hvl⟩
      · exact hd p (List.mem_cons_of_mem _ hp)
    · rw [if_neg h10] at hp
      rcases List.mem_cons.mp hp with hp | hp
      · subst hp; exact hd (k1, vs) (List.mem_cons_self _ _)
      · exact safeD_setItem k vlist hk hvl rest
          (fun q hq => hd q (List.mem_cons_of_mem _ hq)) p hp

theorem safePair_flattenG (d : List (List Char × List (List Char)))
    (hd : ∀ p ∈ d, p.1.all alwaysSafe = true ∧
      ∀ w ∈ p.2, w.all alwaysSafe = true ∧ w ≠ []) :
    ∀ q ∈ flattenG d, safePair q := by
  intro q hq
  unfold flattenG at hq
  rcases List.mem_flatMap.mp hq with ⟨p, hp, hq2⟩
  rcases List.mem_map.mp hq2 with ⟨v, hv, hq3⟩
  subst hq3
  exact ⟨(hd p hp).1, ((hd p hp).2 v hv).1, ((hd p hp).2 v hv).2⟩

/-- The contract of the inline view rewriting at the query-string
level, for well-formed queries. -/
theorem deriveViewQuery_spec (pairs : List (List Char × List Char))
    (view : List Char) (hpairs : ∀ p ∈ pairs, safePair p)
    (hview : view.all alwaysSafe = true) (hviewne : view ≠ []) :
    valuesOf viewKey (parseQsl (deriveViewQuery (serializeQs pairs) view)) =
      [view] ∧
    ∀ k, k ≠ viewKey →
      valuesOf k (parseQsl (deriveViewQuery (serializeQs pairs) view)) =
        valuesOf k pairs := by
  have hviewkey : viewKey.all alwaysSafe = true := by decide
  have hnodup : ((pairs.foldl (fun d p => insertVal p.1 p.2 d) []).map
      Prod.fst).Nodup :=
    nodup_keys_foldl_insert pairs [] List.nodup_nil
  have hgsafe := safeD_foldl pairs [] hpairs (fun p hp => by cases hp)
  have hvlsafe : ∀ w ∈ [view], w.all alwaysSafe = true ∧ w ≠ [] := by
    intro w hw
    rcases List.mem_cons.mp hw with hw | hw
    · subst hw; exact ⟨hview, hviewne⟩
    · cases hw
  have hsetsafe := safeD_setItem viewKey [view] hviewkey hvlsafe
    (pairs.foldl (fun d p => insertVal p.1 p.2 d) []) hgsafe
  have hflat := safePair_flattenG _ hsetsafe
  have hrt : parseQsl (deriveViewQuery (serializeQs pairs) view) =
      flattenG (setItem viewKey [view]
        (pairs.foldl (fun d p => insertVal p.1 p.2 d) [])) := by
    unfold deriveViewQuery parseQs
    rw [parseQsl_serializeQs pairs hpairs,
      urlencodeDoseq_eq_serializeQs _
        (fun p hp => ⟨(hsetsafe p hp).1,
          fun v hv => ((hsetsafe p hp).2 v hv).1⟩),
      parseQsl_serializeQs _ hflat]
  constructor
  · rw [hrt, valuesOf_flattenG_setItem viewKey viewKey [view] _ hnodup,
      if_pos rfl]
  · intro k hk
    rw [hrt, valuesOf_flattenG_setItem k viewKey [view] _ hnodup,
      if_neg (fun hc => hk hc.symm),
      valuesOf_foldl_insert k pairs [] List.nodup_nil]
    simp [flattenG, valuesOf]

/-- C1 counterexample: the chapter URL query foo=&x=1 is well formed
and carries the parameter foo with a blank value; after the view
rewriting the derived query is x=1&view=lectures, in which foo does not
occur at all, because parse_qs drops blank-valued parameters.  So not
every other pre-existing query parameter is preserved. -/
theorem c1_blank_param_dropped_counterexample :
    deriveViewQuery ("foo=&x=1").data ("lectures").data =
      ("x=1&view=lectures").data ∧
    (rawKeys ("foo=&x=1").data).contains ("foo").data = true ∧
    (rawKeys ("x=1&view=lectures").data).contains ("foo").data = false := by
  refine ⟨by decide, by decide, by decide⟩

/-- C1 (amended): for every parsed chapter URL whose query string is
the serialisation of key-value pairs made of characters that urlencode
keeps verbatim and with non-empty values, the view rewriting keeps
scheme, network location and path unchanged, sets the view parameter to
exactly the requested value, and preserves the values of every other
key in order, multi-valued keys included.  The original claim fails
only for parameters with blank values, which parse_qs drops. -/
theorem c1_view_url_contract (u : ParsedUrl)
    (pairs : List (List Char × List Char)) (view : String)
    (hpairs : ∀ p ∈ pairs, safePair p)
    (hview : view.data.all alwaysSafe = true) (hviewne : view.data ≠ [])
    (hq : u.query.data = serializeQs pairs) :
    (derive_view_url u view).scheme = u.scheme ∧
    (derive_view_url u view).netloc = u.netloc ∧
    (derive_view_url u view).path = u.path ∧
    valuesOf viewKey (parseQsl (derive_view_url u view).query.data) =
      [view.data] ∧
    ∀ k, k ≠ viewKey →
      valuesOf k (parseQsl (derive_view_url u view).query.data) =
        valuesOf k pairs := by
  refine ⟨rfl, rfl, rfl, ?_, ?_⟩
  · show valuesOf viewKey
      (parseQsl (deriveViewQuery u.query.data view.data)) = [view.data]
    rw [hq]
    exact (deriveViewQuery_spec pairs view.data hpairs hview hviewne).1
  · intro k hk
    show valuesOf k
      (parseQsl (deriveViewQuery u.query.data view.data)) = valuesOf k pairs
    rw [hq]
    exact (deriveViewQuery_spec pairs view.data hpairs hview hviewne).2 k hk

/-- C1 witness: a URL with a repeated key and a pre-existing view
parameter. -/
theorem c1_view_url_contract_witness :
    (derive_view_url ⟨"https", "h", "/p", "", "a=1&b=2&a=3", ""⟩
      "lectures").scheme = "https" ∧
    (derive_view_url ⟨"https", "h", "/p", "", "a=1&b=2&a=3", ""⟩
      "lectures").netloc = "h" ∧
    (derive_view_url ⟨"https", "h", "/p", "", "a=1&b=2&a=3", ""⟩
      "lectures").path = "/p" ∧
    valuesOf viewKey (parseQsl (derive_view_url
      ⟨"https", "h", "/p", "", "a=1&b=2&a=3", ""⟩ "lectures").query.data) =
      [("lectures").data] ∧
    valuesOf ("a").data (parseQsl (derive_view_url
      ⟨"https", "h", "/p", "", "a=1&b=2&a=3", ""⟩ "lectures").query.data) =
      [("1").data, ("3").data] :=
  have h := c1_view_url_contract ⟨"https", "h", "/p", "", "a=1&b=2&a=3", ""⟩
    [(("a").data, ("1").data), (("b").data, ("2").data),
     (("a").data, ("3").data)]
    "lectures" (by decide) (by decide) (by decide) (by decide)
  ⟨h.1, h.2.1, h.2.2.1, h.2.2.2.1, by
    rw [h.2.2.2.2 ("a").data (by decide)]
    decide⟩

end KD
